import Mathlib

/-!
# msh: tokenizer, command validator, dispatcher and mode drivers

A shallow embedding of `src/msh/msh.c`.

* A C string is the list of the characters stored before its terminating NUL.
* The NULL-terminated array `args` is the list of its entries before the first NULL;
  `args[k]` is `args.get? k`, with `none` for the NULL entry.
* The effects of one loop iteration are recorded as a list of events together with the way
  control leaves the iteration (`Ctl`).
* The operating system is an oracle: whether `fork` succeeds, which lines `fgets` delivers,
  whether `fopen` succeeds.
-/

namespace Msh

/-- A C string: the characters before the terminating NUL. -/
abbrev CStr := List Char

/-- The macro `WHITESPACE`, defined as `" \t\n"`: the delimiters handed to `strtok`. -/
def WHITESPACE : CStr := [' ', '\t', '\n']

/-- The macro `MAX_COMMAND_SIZE`, the size of the array `input`. -/
def MAX_COMMAND_SIZE : Nat := 255

/-- The macro `MAX_ARGS`, the size of the array `args`. -/
def MAX_ARGS : Nat := 32

/-- The literal `">"`. -/
def GT : CStr := ['>']

/-- The literal `"cd"`. -/
def CD : CStr := ['c', 'd']

/-- The literal `"exit"`. -/
def EXIT : CStr := ['e', 'x', 'i', 't']

/-- Membership in the delimiter set handed to `strtok`. -/
def isDelim (c : Char) : Bool := WHITESPACE.contains c

/-- The C library `isspace` in the "C" locale: space, `\t`, `\n`, `\v`, `\f`, `\r`. -/
def isspace (c : Char) : Bool :=
  c == ' ' || c == '\t' || c == '\n' || c == '\x0b' || c == '\x0c' || c == '\r'

/-- The C string held in a char array: everything before the first NUL byte. -/
def cstr (bytes : List Char) : CStr := bytes.takeWhile (fun c => c != '\x00')

/-- The test `strcmp(input, lit) == 0`. -/
def strcmp_eq (input : List Char) (lit : CStr) : Bool := cstr input == cstr lit

/-- The C library `strcspn(s, reject)`: length of the initial segment of the string free of
the characters of `reject`. -/
def strcspn (s : List Char) (reject : CStr) : Nat :=
  ((cstr s).takeWhile (fun c => !reject.contains c)).length

/-- The string in `input` after `input[strcspn(input, "\n")] = '\0'`. -/
def cut_newline (input : List Char) : CStr := (cstr input).take (strcspn input ['\n'])

/-- The array `input` as `strtok` sees it: the bytes lying before the saved position (with
the NUL bytes `strtok` has written) and the string at the saved position. -/
structure Buffer where
  before : List Char
  rest : CStr
deriving DecidableEq, Repr

/-- One call of `strtok` with the delimiters `WHITESPACE`: skip delimiters; at the end of the
string return NULL; otherwise the token runs to the next delimiter, which is overwritten by NUL,
or to the end of the string. -/
def strtok (b : Buffer) : Option CStr × Buffer :=
  match b.rest.dropWhile isDelim with
  | [] => (none, ⟨b.before ++ b.rest, []⟩)
  | c :: s =>
    let tok := (c :: s).takeWhile (fun x => !isDelim x)
    match (c :: s).dropWhile (fun x => !isDelim x) with
    | [] => (some tok, ⟨b.before ++ b.rest, []⟩)
    | _ :: r => (some tok, ⟨b.before ++ b.rest.takeWhile isDelim ++ tok ++ ['\x00'], r⟩)

/-- The loop `while (token != NULL && i < MAX_ARGS - 1) { args[i++] = token; token =
strtok(NULL, WHITESPACE); }`; the first argument is `MAX_ARGS - 1 - i`. -/
def token_loop : Nat → Option CStr → Buffer → List CStr × Buffer
  | 0, _, b => ([], b)
  | _ + 1, none, b => ([], b)
  | n + 1, some t, b =>
    let r := strtok b
    let out := token_loop n r.1 r.2
    (t :: out.1, out.2)

/-- The tokenizer of both modes: `strtok(input, WHITESPACE)` followed by the loop. Returns the
entries stored in `args` and the array `input` as the calls leave it. -/
def tokenize (line : CStr) : List CStr × Buffer :=
  let r := strtok ⟨[], line⟩
  token_loop (MAX_ARGS - 1) r.1 r.2

/-- The token sequence of an input line. -/
def tokens_of (input : List Char) : List CStr := (tokenize (cut_newline input)).1

/-- Whitespace in the words of the specification: space, tab, newline. -/
def is_whitespace (c : Char) : Bool := c == ' ' || c == '\t' || c == '\n'

/-- The maximal runs of non-whitespace characters of a string, left to right: the string is
split at every whitespace character and the non-empty pieces are kept. Written from the
specification, not from the code. -/
def words (s : CStr) : List CStr := (s.splitOnP is_whitespace).filter (fun w => !w.isEmpty)

/-- The call `open(path, O_WRONLY | O_CREAT | O_TRUNC, 0666)`. -/
structure OpenCall where
  path : CStr
  wronly : Bool
  creat : Bool
  trunc : Bool
  mode : Nat
deriving DecidableEq, Repr

/-- What the forked child does. `error_exit`: it writes the error message and calls `exit(0)`
without executing anything. `exec file argv redirect`: it opens `redirect` (when present) and
duplicates the descriptor onto standard output and standard error, then calls
`execvp(file, argv)`. -/
inductive ChildAct
  | error_exit
  | exec (file : Option CStr) (argv : List CStr) (redirect : Option OpenCall)
deriving DecidableEq, Repr

/-- The text of every `char error_message[30]` of the program. -/
def error_message : CStr := "An error has occurred\n".toList

/-- The observable actions of the shell process: the prompt, a `write` of a text to
`STDERR_FILENO`, a call of `perror`, a call of `chdir` (followed by `perror("chdir")` when it
fails), a successful `fork` with what the child does while the parent waits, `fclose`. -/
inductive Event
  | prompt
  | write_stderr (text : CStr)
  | perror (what : CStr)
  | chdir (path : CStr)
  | child (act : ChildAct)
  | fclose
deriving DecidableEq, Repr

/-- The event of writing the uniform error message once. -/
abbrev Event.errmsg : Event := .write_stderr error_message

/-- How control leaves one iteration of a mode loop: `next` is `continue` or the end of the
body, `stop` is `break`, `exit s` is the call `exit(s)`, `fault` is the dereference of a NULL
entry of `args`. -/
inductive Ctl
  | next
  | stop
  | exit (status : Nat)
  | fault
deriving DecidableEq, Repr

/-- Events and control of one iteration. -/
structure Outcome where
  events : List Event
  ctl : Ctl
deriving DecidableEq, Repr

/-- The value of `i` after `for (i = 0; args[i] != NULL; i++) if (strcmp(args[i], ">") == 0)
{ redirect = i; break; }`: the index of the first `>` entry, or the number of entries when
there is none. `redirect` is this index in the first case and `-1` in the second. -/
def scan (args : List CStr) : Nat := args.findIdx (fun a => a == GT)

/-- The child branch of `execute_command`. -/
def child_action (args : List CStr) : ChildAct :=
  let i := scan args
  if i < args.length then
    match args.get? (i + 1) with
    | none => .error_exit
    | some f => .exec (args.take i).head? (args.take i) (some ⟨f, true, true, true, 0o666⟩)
  else .exec args.head? args none

/-- The function `execute_command(args)`, seen from the shell process: `fork_ok` says whether
`fork` succeeded. When it did, the parent waits for the child and returns. -/
def execute_command (fork_ok : Bool) (args : List CStr) : Outcome :=
  if fork_ok then ⟨[.child (child_action args)], .next⟩
  else ⟨[.perror ['f', 'o', 'r', 'k']], .exit 0⟩

/-- The two `if (redirect != -1)` blocks shared by both modes. -/
def check_redirect (args : List CStr) : Option Outcome :=
  let i := scan args
  if i < args.length then
    if i == 0 || (args.get? (i - 1)).isNone then some ⟨[.errmsg], .exit 0⟩
    else if (args.get? (i + 1)).isSome && (args.get? (i + 2)).isSome then
      some ⟨[.errmsg], .next⟩
    else none
  else none

/-- The `cd` branch of both modes: `if (i == 2) chdir(args[1]) else error, exit(0)`. -/
def builtin_cd (args : List CStr) : Outcome :=
  if scan args == 2 then
    match args.get? 1 with
    | some p => ⟨[.chdir p], .next⟩
    | none => ⟨[], .fault⟩
  else ⟨[.errmsg], .exit 0⟩

/-- The body of the loop of `interactive_mode` from `int redirect = -1;` on. -/
def interactive_dispatch (fork_ok : Bool) (args : List CStr) : Outcome :=
  match check_redirect args with
  | some o => o
  | none =>
    match args.head? with
    | none => ⟨[], .fault⟩
    | some a0 =>
      if a0 == CD then builtin_cd args
      else execute_command fork_ok args

/-- The body of the loop of `batch_mode` from `int redirect = -1;` on. -/
def batch_dispatch (fork_ok : Bool) (args : List CStr) : Outcome :=
  match check_redirect args with
  | some o => o
  | none =>
    match args.head? with
    | none => ⟨[], .fault⟩
    | some a0 =>
      if a0 == CD then builtin_cd args
      else if a0 == EXIT then
        if (args.get? 1).isSome then ⟨[.errmsg], .exit 0⟩ else ⟨[.fclose], .exit 0⟩
      else execute_command fork_ok args

/-- The first half of a loop body: either the line is dealt with before the validator runs, or
a token sequence is handed on. -/
inductive Tokenized
  | handled (o : Outcome)
  | tokens (args : List CStr)
deriving DecidableEq, Repr

/-- The body of the loop of `interactive_mode` up to `if (i == 0) continue;`. -/
def interactive_tokenize (input : List Char) : Tokenized :=
  if strcmp_eq input ['e', 'x', 'i', 't', '\n'] then .handled ⟨[], .stop⟩
  else if strcmp_eq input ['\n'] then .handled ⟨[], .next⟩
  else
    let args := (tokenize (cut_newline input)).1
    if args.length == 0 then .handled ⟨[], .next⟩ else .tokens args

/-- The loop `while (trm_end > trm && isspace(*trm_end)) *trm_end-- = '\0';` started at the last
character: trailing `isspace` characters are removed, the first character never is. On the empty
string the start pointer lies below `trm` and the loop body does not run. -/
def trim_end : CStr → CStr
  | [] => []
  | c :: s => c :: s.rdropWhile isspace

/-- The loop `while (*trm && isspace(*trm)) ++trm;`. -/
def trim_start (s : CStr) : CStr := s.dropWhile isspace

/-- The body of the loop of `batch_mode` up to `args[i] = NULL;`. -/
def batch_tokenize (input : List Char) : Tokenized :=
  if strcmp_eq input ['\n'] then .handled ⟨[], .next⟩
  else if strcmp_eq input ['\n'] || strcmp_eq input ['>', '\n'] then
    .handled ⟨[.errmsg], .next⟩
  else
    let r := tokenize (cut_newline input)
    let trm := trim_start (trim_end (cstr (r.2.before ++ r.2.rest)))
    if trm == [] then .handled ⟨[], .next⟩ else .tokens r.1

/-- One iteration of the loop of `interactive_mode` on the line `fgets` stored in `input`. -/
def interactive_line (fork_ok : Bool) (input : List Char) : Outcome :=
  match interactive_tokenize input with
  | .handled o => o
  | .tokens args => interactive_dispatch fork_ok args

/-- One iteration of the loop of `batch_mode` on the line `fgets` stored in `input`. -/
def batch_line (fork_ok : Bool) (input : List Char) : Outcome :=
  match batch_tokenize input with
  | .handled o => o
  | .tokens args => batch_dispatch fork_ok args

/-- How a mode function ends: it returns to `main`, or the process has called `exit(s)`, or it
has faulted. -/
inductive Ending
  | returned
  | exited (status : Nat)
  | faulted
deriving DecidableEq, Repr

/-- The loop of `interactive_mode`: `lines` are the successive results of `fgets` (then end of
input), `fork n` is the result of a `fork` made while the line number `n` is processed. -/
def interactive_loop (fork : Nat → Bool) : Nat → List (List Char) → List Event × Ending
  | _, [] => ([.prompt], .returned)
  | n, l :: ls =>
    let o := interactive_line (fork n) l
    match o.ctl with
    | .next =>
      let r := interactive_loop fork (n + 1) ls
      (.prompt :: o.events ++ r.1, r.2)
    | .stop => (.prompt :: o.events, .returned)
    | .exit s => (.prompt :: o.events, .exited s)
    | .fault => (.prompt :: o.events, .faulted)

/-- The loop of `batch_mode` and the `fclose` after it. -/
def batch_loop (fork : Nat → Bool) : Nat → List (List Char) → List Event × Ending
  | _, [] => ([.fclose], .returned)
  | n, l :: ls =>
    let o := batch_line (fork n) l
    match o.ctl with
    | .next =>
      let r := batch_loop fork (n + 1) ls
      (o.events ++ r.1, r.2)
    | .stop => (o.events ++ [.fclose], .returned)
    | .exit s => (o.events, .exited s)
    | .fault => (o.events, .faulted)

/-- The environment of a run: the lines on standard input, the lines of each file that can be
opened, the results of `fork`. -/
structure Env where
  stdin : List (List Char)
  fopen : CStr → Option (List (List Char))
  fork : Nat → Bool

/-- The function `interactive_mode()`. -/
def interactive_mode (env : Env) : List Event × Ending :=
  interactive_loop env.fork 0 env.stdin

/-- The function `batch_mode(filename)`: the file is opened, then read line by line. -/
def batch_mode (env : Env) (filename : CStr) : List Event × Ending :=
  match env.fopen filename with
  | none => ([.errmsg], .exited 1)
  | some lines => batch_loop env.fork 0 lines

/-- A finished run of the shell process: what it did and its exit status (`none` when it was
ended by a fault). -/
structure Run where
  events : List Event
  status : Option Nat
deriving DecidableEq, Repr

/-- A mode function followed by `return 0;` in `main`. -/
def finish (r : List Event × Ending) : Run :=
  match r.2 with
  | .returned => ⟨r.1, some 0⟩
  | .exited s => ⟨r.1, some s⟩
  | .faulted => ⟨r.1, none⟩

/-- The function `main(argc, argv)`, with `argc = argv.length` and `argv[argc] = NULL`. -/
def main (argv : List CStr) (env : Env) : Run :=
  let argc := argv.length
  if argc == 1 then finish (interactive_mode env)
  else if argc == 2 && argv.get? 1 == some EXIT then
    if (argv.get? 2).isSome then ⟨[.errmsg], some 0⟩ else ⟨[], some 0⟩
  else if argc == 2 && argv.get? 1 == some CD then ⟨[.chdir ['/']], some 0⟩
  else if argc == 2 then
    match argv.get? 1 with
    | some f => finish (batch_mode env f)
    | none => ⟨[], none⟩
  else if argc > 2 then ⟨[.errmsg], some 1⟩
  else ⟨[.errmsg], some 0⟩

theorem isDelim_iff (c : Char) : isDelim c = true ↔ c = ' ' ∨ c = '\t' ∨ c = '\n' := by
  simp [isDelim, WHITESPACE]

theorem is_whitespace_eq : is_whitespace = isDelim := by
  funext c
  rw [Bool.eq_iff_iff, isDelim_iff]
  simp [is_whitespace, or_assoc]

theorem words_eq (s : CStr) :
    words s = (s.splitOnP isDelim).filter (fun w => !w.isEmpty) := by
  rw [words, is_whitespace_eq]

theorem words_nil : words [] = [] := by
  simp [words]

theorem words_cons_delim (c : Char) (s : CStr) (h : isDelim c = true) :
    words (c :: s) = words s := by
  simp [words_eq, h]

theorem words_dropWhile (s : CStr) : words (s.dropWhile isDelim) = words s := by
  induction s with
  | nil => rfl
  | cons c s ih =>
    by_cases h : isDelim c = true
    · rw [List.dropWhile_cons_of_pos h, ih, words_cons_delim c s h]
    · rw [List.dropWhile_cons_of_neg h]

theorem takeWhile_not_delim (s : CStr) :
    ∀ x ∈ s.takeWhile (fun x => !isDelim x), ¬ isDelim x = true := by
  intro x hx
  have := List.mem_takeWhile_imp hx
  simpa using this

theorem words_token_end (c : Char) (s : CStr) (_hc : isDelim c = false)
    (h : (c :: s).dropWhile (fun x => !isDelim x) = []) :
    words (c :: s) = [(c :: s).takeWhile (fun x => !isDelim x)] := by
  have h1 : (c :: s).takeWhile (fun x => !isDelim x) = c :: s := by
    have := List.takeWhile_append_dropWhile (fun x => !isDelim x) (c :: s)
    rw [h, List.append_nil] at this
    exact this
  rw [h1]
  have h2 : (c :: s).splitOnP isDelim = [c :: s] := by
    apply List.splitOnP_eq_single
    rw [← h1]
    exact takeWhile_not_delim (c :: s)
  simp [words_eq, h2]

theorem words_token_more (c : Char) (s : CStr) (hc : isDelim c = false) (d : Char) (r : CStr)
    (h : (c :: s).dropWhile (fun x => !isDelim x) = d :: r) :
    words (c :: s) = (c :: s).takeWhile (fun x => !isDelim x) :: words r := by
  have hd : isDelim d = true := by
    have := List.head_dropWhile_not (fun x => !isDelim x) (c :: s) (by rw [h]; simp)
    simpa [h] using this
  have h1 := List.takeWhile_append_dropWhile (fun x => !isDelim x) (c :: s)
  rw [h] at h1
  have h2 : (c :: s).splitOnP isDelim
      = (c :: s).takeWhile (fun x => !isDelim x) :: r.splitOnP isDelim := by
    conv_lhs => rw [← h1]
    exact List.splitOnP_first isDelim _ (takeWhile_not_delim (c :: s)) d hd r
  have h3 : (c :: s).takeWhile (fun x => !isDelim x) ≠ [] := by
    rw [List.takeWhile_cons_of_pos (by simp [hc])]; simp
  rw [words_eq, words_eq, h2, List.filter_cons_of_pos]
  simpa using h3

theorem strtok_none (b : Buffer) (h : b.rest.dropWhile isDelim = []) :
    strtok b = (none, ⟨b.before ++ b.rest, []⟩) := by
  simp [strtok, h]

theorem strtok_end (b : Buffer) (c : Char) (s : CStr) (h : b.rest.dropWhile isDelim = c :: s)
    (hr : (c :: s).dropWhile (fun x => !isDelim x) = []) :
    strtok b = (some ((c :: s).takeWhile (fun x => !isDelim x)), ⟨b.before ++ b.rest, []⟩) := by
  simp only [strtok, h, hr]

theorem strtok_more (b : Buffer) (c : Char) (s : CStr) (h : b.rest.dropWhile isDelim = c :: s)
    (d : Char) (r : CStr) (hr : (c :: s).dropWhile (fun x => !isDelim x) = d :: r) :
    strtok b = (some ((c :: s).takeWhile (fun x => !isDelim x)),
      ⟨b.before ++ b.rest.takeWhile isDelim ++ (c :: s).takeWhile (fun x => !isDelim x)
        ++ ['\x00'], r⟩) := by
  simp only [strtok, h, hr]

theorem head_dropWhile_delim (t : CStr) (c : Char) (s : CStr)
    (h : t.dropWhile isDelim = c :: s) : isDelim c = false := by
  have := List.head_dropWhile_not isDelim t (by rw [h]; simp)
  simpa [h] using this

/-- The tokens produced from a saved position are the first `n` words of the string there. -/
theorem token_loop_words (n : Nat) (b : Buffer) :
    (token_loop n (strtok b).1 (strtok b).2).1 = (words b.rest).take n := by
  induction n generalizing b with
  | zero => simp [token_loop]
  | succ n ih =>
    rw [← words_dropWhile b.rest]
    cases hs : b.rest.dropWhile isDelim with
    | nil => rw [strtok_none b hs]; simp [token_loop, words_nil]
    | cons c s =>
      have hc := head_dropWhile_delim b.rest c s hs
      cases hr : (c :: s).dropWhile (fun x => !isDelim x) with
      | nil =>
        rw [strtok_end b c s hs hr, words_token_end c s hc hr]
        simp only [token_loop]
        rw [ih]
        simp [words_nil]
      | cons d r =>
        rw [strtok_more b c s hs d r hr, words_token_more c s hc d r hr]
        simp only [token_loop]
        rw [ih]
        simp

theorem tokenize_words (s : CStr) : (tokenize s).1 = (words s).take (MAX_ARGS - 1) := by
  unfold tokenize
  exact token_loop_words (MAX_ARGS - 1) ⟨[], s⟩

theorem isspace_of_isDelim (c : Char) (h : isDelim c = true) : isspace c = true := by
  rw [isDelim_iff] at h
  rcases h with h | h | h <;> subst h <;> decide

/-- The blank-line test of `batch_mode` succeeds exactly on strings of `isspace` characters. -/
theorem trim_eq_nil_iff (x : CStr) :
    trim_start (trim_end x) = [] ↔ ∀ c ∈ x, isspace c = true := by
  cases x with
  | nil => simp [trim_start, trim_end]
  | cons a s =>
    simp only [trim_start, trim_end, List.dropWhile_eq_nil_iff, List.mem_cons, forall_eq_or_imp]
    constructor
    · rintro ⟨ha, hs⟩
      refine ⟨ha, ?_⟩
      have h1 := (List.rdropWhile_eq_nil_iff (p := isspace) (l := s.rdropWhile isspace)).2 hs
      rw [List.rdropWhile_idempotent] at h1
      exact List.rdropWhile_eq_nil_iff.1 h1
    · rintro ⟨ha, hs⟩
      refine ⟨ha, ?_⟩
      intro c hc
      exact hs c ((List.rdropWhile_prefix isspace s).subset hc)

theorem cstr_of_not_mem (s : List Char) (h : '\x00' ∉ s) : cstr s = s := by
  unfold cstr
  rw [List.takeWhile_eq_self_iff]
  intro c hc
  have : c ≠ '\x00' := fun e => h (e ▸ hc)
  simpa using this

theorem cstr_append_nul (s t : List Char) (h : '\x00' ∉ s) : cstr (s ++ '\x00' :: t) = s := by
  unfold cstr
  induction s with
  | nil => simp
  | cons a s ih =>
    have ha : a ≠ '\x00' := fun e => h (by simp [e])
    have hs : '\x00' ∉ s := fun e => h (by simp [e])
    rw [List.cons_append, List.takeWhile_cons_of_pos (by simpa using ha), ih hs]

theorem nul_not_mem_cstr (b : List Char) : '\x00' ∉ cstr b := by
  intro h
  have := List.mem_takeWhile_imp h
  simp at this

theorem cut_newline_eq (input : List Char) :
    cut_newline input = (cstr input).takeWhile (fun c => c != '\n') := by
  unfold cut_newline strcspn
  have hp : (fun c : Char => !(['\n'] : List Char).contains c) = (fun c => c != '\n') := by
    funext c
    by_cases h : c = '\n' <;> simp [h]
  rw [hp]
  exact (List.prefix_iff_eq_take.1 (List.takeWhile_prefix _)).symm

theorem nul_not_mem_cut (input : List Char) : '\x00' ∉ cut_newline input := by
  rw [cut_newline_eq]
  intro h
  exact nul_not_mem_cstr input ((List.takeWhile_prefix _).subset h)

/-- Each call of `strtok` only adds bytes behind those already passed. -/
theorem strtok_before (b : Buffer) : ∃ x, (strtok b).2.before = b.before ++ x := by
  cases hs : b.rest.dropWhile isDelim with
  | nil => rw [strtok_none b hs]; exact ⟨b.rest, rfl⟩
  | cons c s =>
    cases hr : (c :: s).dropWhile (fun x => !isDelim x) with
    | nil => rw [strtok_end b c s hs hr]; exact ⟨b.rest, rfl⟩
    | cons d r =>
      rw [strtok_more b c s hs d r hr]
      exact ⟨b.rest.takeWhile isDelim ++ (c :: s).takeWhile (fun x => !isDelim x) ++ ['\x00'],
        by simp only [List.append_assoc]⟩

theorem token_loop_some (n : Nat) (t : CStr) (b : Buffer) :
    token_loop (n + 1) (some t) b
      = (t :: (token_loop n (strtok b).1 (strtok b).2).1,
          (token_loop n (strtok b).1 (strtok b).2).2) := rfl

theorem token_loop_before (n : Nat) (t : Option CStr) (b : Buffer) :
    ∃ x, (token_loop n t b).2.before = b.before ++ x := by
  induction n generalizing t b with
  | zero => exact ⟨[], by simp [token_loop]⟩
  | succ n ih =>
    cases t with
    | none => exact ⟨[], by simp [token_loop]⟩
    | some t =>
      simp only [token_loop]
      obtain ⟨x, hx⟩ := strtok_before b
      obtain ⟨y, hy⟩ := ih (strtok b).1 (strtok b).2
      exact ⟨x ++ y, by rw [hy, hx, List.append_assoc]⟩

theorem token_loop_at_end (n : Nat) (t : Option CStr) (u : List Char) :
    (token_loop n t ⟨u, []⟩).2 = ⟨u, []⟩ := by
  induction n generalizing t with
  | zero => simp [token_loop]
  | succ n ih =>
    cases t with
    | none => simp [token_loop]
    | some t =>
      simp only [token_loop]
      rw [strtok_none ⟨u, []⟩ rfl]
      simpa using ih none

/-- What `strdup(input)` copies after the tokenizer has run: the leading delimiters and the
first token (or the whole string when there is no token). -/
theorem strdup_after_tokenize (s : CStr) (hs : '\x00' ∉ s) :
    cstr ((tokenize s).2.before ++ (tokenize s).2.rest)
      = s.takeWhile isDelim ++ ((tokenize s).1.headD []) := by
  have hsplit := List.takeWhile_append_dropWhile isDelim s
  unfold tokenize
  cases h1 : s.dropWhile isDelim with
  | nil =>
    rw [strtok_none ⟨[], s⟩ h1]
    rw [h1, List.append_nil] at hsplit
    simp [token_loop, hsplit, cstr_of_not_mem s hs]
  | cons c s1 =>
    rw [h1] at hsplit
    cases hr : (c :: s1).dropWhile (fun x => !isDelim x) with
    | nil =>
      rw [strtok_end ⟨[], s⟩ c s1 h1 hr]
      have htok : (c :: s1).takeWhile (fun x => !isDelim x) = c :: s1 := by
        have := List.takeWhile_append_dropWhile (fun x => !isDelim x) (c :: s1)
        rw [hr, List.append_nil] at this
        exact this
      have : MAX_ARGS - 1 = 30 + 1 := rfl
      rw [this]
      rw [token_loop_some, strtok_none ⟨[] ++ s, []⟩ rfl]
      simp only [List.nil_append, List.headD_cons, List.append_nil]
      rw [token_loop_at_end, htok, hsplit]
      simpa using cstr_of_not_mem s hs
    | cons d r =>
      rw [strtok_more ⟨[], s⟩ c s1 h1 d r hr]
      have : MAX_ARGS - 1 = 30 + 1 := rfl
      rw [this]
      rw [token_loop_some]
      simp only [List.nil_append, List.headD_cons]
      generalize hb1 : (⟨s.takeWhile isDelim ++ (c :: s1).takeWhile (fun x => !isDelim x)
        ++ ['\x00'], r⟩ : Buffer) = b1
      have hb1' : b1.before
          = s.takeWhile isDelim ++ (c :: s1).takeWhile (fun x => !isDelim x) ++ ['\x00'] := by
        rw [← hb1]
      obtain ⟨x, hx⟩ := token_loop_before 30 (strtok b1).1 (strtok b1).2
      obtain ⟨y, hy⟩ := strtok_before b1
      rw [hb1'] at hy
      rw [hx, hy]
      simp only [List.append_assoc, List.singleton_append]
      rw [← List.append_assoc]
      apply cstr_append_nul
      intro hmem
      apply hs
      rw [← hsplit]
      rcases List.mem_append.1 hmem with h | h
      · exact List.mem_append_left _ h
      · exact List.mem_append_right _ ((List.takeWhile_prefix _).subset h)

theorem tokens_of_words (input : List Char) :
    tokens_of input = (words (cut_newline input)).take (MAX_ARGS - 1) :=
  tokenize_words (cut_newline input)

/-- Every word is non-empty and free of delimiters. -/
theorem words_mem (s : CStr) : ∀ w ∈ words s, w ≠ [] ∧ ∀ c ∈ w, isDelim c = false := by
  generalize hn : s.length = n
  induction n using Nat.strong_induction_on generalizing s with
  | _ n ih =>
    intro w hw
    subst hn
    rw [← words_dropWhile s] at hw
    have hlen : (s.dropWhile isDelim).length ≤ s.length :=
      (List.dropWhile_suffix isDelim).length_le
    cases hs : s.dropWhile isDelim with
    | nil => rw [hs, words_nil] at hw; cases hw
    | cons c s1 =>
      have hc := head_dropWhile_delim s c s1 hs
      rw [hs] at hw hlen
      have htok : ∀ x ∈ (c :: s1).takeWhile (fun x => !isDelim x), isDelim x = false := by
        intro x hx
        simpa using takeWhile_not_delim (c :: s1) x hx
      have hne : (c :: s1).takeWhile (fun x => !isDelim x) ≠ [] := by
        rw [List.takeWhile_cons_of_pos (by simp [hc])]; simp
      cases hr : (c :: s1).dropWhile (fun x => !isDelim x) with
      | nil =>
        rw [words_token_end c s1 hc hr] at hw
        simp only [List.mem_singleton] at hw
        subst hw
        exact ⟨hne, htok⟩
      | cons d r =>
        rw [words_token_more c s1 hc d r hr] at hw
        rcases List.mem_cons.1 hw with h | h
        · subst h; exact ⟨hne, htok⟩
        · have hr_len : r.length < s.length := by
            have h2 : (d :: r).length ≤ (c :: s1).length := by
              rw [← hr]; exact (List.dropWhile_suffix _).length_le
            simp only [List.length_cons] at h2 hlen
            omega
          exact ih r.length hr_len r rfl w h

theorem tokens_of_mem (input : List Char) (t : CStr) (h : t ∈ tokens_of input) :
    t ≠ [] ∧ ∀ c ∈ t, isDelim c = false := by
  rw [tokens_of_words] at h
  exact words_mem _ t (List.mem_of_mem_take h)

theorem tokens_of_length (input : List Char) : (tokens_of input).length ≤ MAX_ARGS - 1 := by
  rw [tokens_of_words]
  simp

/-- The token sequence depends on the array only through the string it holds. -/
theorem tokens_of_cstr (input : List Char) :
    tokens_of input = (tokenize ((cstr input).takeWhile (fun c => c != '\n'))).1 := by
  unfold tokens_of
  rw [cut_newline_eq]

theorem strcmp_eq_iff (input : List Char) (lit : CStr) (h : '\x00' ∉ lit) :
    strcmp_eq input lit = true ↔ cstr input = lit := by
  unfold strcmp_eq
  rw [cstr_of_not_mem lit h]
  simp

/-- The blank-line test of `batch_mode` in terms of the first token. -/
theorem batch_guard (input : List Char) :
    (trim_start (trim_end (cstr ((tokenize (cut_newline input)).2.before
        ++ (tokenize (cut_newline input)).2.rest))) == [])
      = ((tokens_of input).headD []).all isspace := by
  rw [strdup_after_tokenize _ (nul_not_mem_cut input), Bool.eq_iff_iff]
  simp only [beq_iff_eq, trim_eq_nil_iff, List.all_eq_true]
  constructor
  · intro h c hc
    exact h c (List.mem_append_right _ hc)
  · intro h c hc
    rcases List.mem_append.1 hc with h1 | h1
    · have := List.mem_takeWhile_imp h1
      exact isspace_of_isDelim c this
    · exact h c h1

theorem batch_tokenize_eq (input : List Char) :
    batch_tokenize input =
      if cstr input = ['\n'] then .handled ⟨[], .next⟩
      else if cstr input = ['>', '\n'] then .handled ⟨[.errmsg], .next⟩
      else if ((tokens_of input).headD []).all isspace = true then .handled ⟨[], .next⟩
      else .tokens (tokens_of input) := by
  unfold batch_tokenize
  simp only [batch_guard]
  have h1 := strcmp_eq_iff input ['\n'] (by decide)
  have h2 := strcmp_eq_iff input ['>', '\n'] (by decide)
  by_cases c1 : cstr input = ['\n']
  · simp [c1, h1.2 c1]
  · have c1' : strcmp_eq input ['\n'] = false := by
      simpa using (not_congr h1).2 c1
    by_cases c2 : cstr input = ['>', '\n']
    · simp [c2, h2.2 c2, c1']
    · have c2' : strcmp_eq input ['>', '\n'] = false := by
        simpa using (not_congr h2).2 c2
      simp [c1, c2, c1', c2', tokens_of]

theorem interactive_tokenize_eq (input : List Char) :
    interactive_tokenize input =
      if cstr input = ['e', 'x', 'i', 't', '\n'] then .handled ⟨[], .stop⟩
      else if cstr input = ['\n'] then .handled ⟨[], .next⟩
      else if tokens_of input = [] then .handled ⟨[], .next⟩
      else .tokens (tokens_of input) := by
  unfold interactive_tokenize
  have h1 := strcmp_eq_iff input ['\n'] (by decide)
  have h2 := strcmp_eq_iff input ['e', 'x', 'i', 't', '\n'] (by decide)
  by_cases c2 : cstr input = ['e', 'x', 'i', 't', '\n']
  · simp [c2, h2.2 c2]
  · have c2' : strcmp_eq input ['e', 'x', 'i', 't', '\n'] = false := by
      simpa using (not_congr h2).2 c2
    by_cases c1 : cstr input = ['\n']
    · simp [c1, h1.2 c1, c2']
    · have c1' : strcmp_eq input ['\n'] = false := by
        simpa using (not_congr h1).2 c1
      simp [c1, c2, c1', c2', tokens_of]

theorem tokens_of_newline (input : List Char) (h : cstr input = ['\n']) :
    tokens_of input = [] := by
  rw [tokens_of_cstr, h]; decide

theorem tokens_of_gt_newline (input : List Char) (h : cstr input = ['>', '\n']) :
    tokens_of input = [GT] := by
  rw [tokens_of_cstr, h]; decide

theorem tokens_of_exit_newline (input : List Char) (h : cstr input = ['e', 'x', 'i', 't', '\n']) :
    tokens_of input = [EXIT] := by
  rw [tokens_of_cstr, h]; decide

theorem scan_le (args : List CStr) : scan args ≤ args.length := List.findIdx_le_length _

theorem scan_cons (a : CStr) (rest : List CStr) :
    scan (a :: rest) = if a = GT then 0 else scan rest + 1 := by
  unfold scan
  rw [List.findIdx_cons]
  by_cases h : a = GT
  · simp [h]
  · have hb : (a == GT) = false := by simpa using h
    simp [h, hb]

theorem scan_of_not_mem (args : List CStr) (h : GT ∉ args) : scan args = args.length := by
  induction args with
  | nil => rfl
  | cons a rest ih =>
    have ha : a ≠ GT := fun e => h (by simp [e])
    have hr : GT ∉ rest := fun e => h (by simp [e])
    rw [scan_cons, if_neg ha, ih hr]; rfl

theorem scan_append (pre post : List CStr) (h : GT ∉ pre) :
    scan (pre ++ GT :: post) = pre.length := by
  induction pre with
  | nil => simp [scan_cons]
  | cons a rest ih =>
    have ha : a ≠ GT := fun e => h (by simp [e])
    have hr : GT ∉ rest := fun e => h (by simp [e])
    rw [List.cons_append, scan_cons, if_neg ha, ih hr]; rfl

/-- The two redirection checks in terms of the position of the first `>`. -/
theorem check_redirect_eq (args : List CStr) :
    check_redirect args =
      if scan args < args.length then
        if scan args = 0 then some ⟨[.errmsg], .exit 0⟩
        else if scan args + 2 < args.length then some ⟨[.errmsg], .next⟩
        else none
      else none := by
  unfold check_redirect
  by_cases h : scan args < args.length
  · by_cases h0 : scan args = 0
    · simp [h, h0]
    · have h1 : ¬ (args.length ≤ scan args - 1) := by omega
      by_cases h2 : scan args + 2 < args.length
      · have h3 : scan args + 1 < args.length := by omega
        simp [h, h0, h1, h2, h3, List.getElem?_eq_getElem]
      · by_cases h3 : scan args + 1 < args.length
        · have h4 : args.length ≤ scan args + 2 := by omega
          simp [h, h0, h1, h2, h3, List.getElem?_eq_getElem, List.getElem?_eq_none h4]
        · have h4 : args.length ≤ scan args + 1 := by omega
          simp [h, h0, h1, h2, List.getElem?_eq_none h4]
  · simp [h]

theorem interactive_line_of_tokens (fk : Bool) (input : List Char) (args : List CStr)
    (h : interactive_tokenize input = .tokens args) :
    interactive_line fk input = interactive_dispatch fk args := by
  simp [interactive_line, h]

theorem batch_line_of_tokens (fk : Bool) (input : List Char) (args : List CStr)
    (h : batch_tokenize input = .tokens args) :
    batch_line fk input = batch_dispatch fk args := by
  simp [batch_line, h]

theorem handed_on_interactive (input : List Char) (args : List CStr)
    (h : interactive_tokenize input = .tokens args) : args = tokens_of input ∧ args ≠ [] := by
  rw [interactive_tokenize_eq] at h
  split_ifs at h with h1 h2 h3
  simp only [Tokenized.tokens.injEq] at h
  exact ⟨h.symm, h ▸ h3⟩

theorem handed_on_batch (input : List Char) (args : List CStr)
    (h : batch_tokenize input = .tokens args) : args = tokens_of input ∧ args ≠ [] := by
  rw [batch_tokenize_eq] at h
  split_ifs at h with h1 h2 h3
  simp only [Tokenized.tokens.injEq] at h
  refine ⟨h.symm, ?_⟩
  intro he
  rw [← h] at he
  rw [he] at h3
  simp at h3

/-- C1: the tokenizer of both modes (the line cut at its first newline, then the `strtok` loop
over `" \t\n"`) yields exactly the maximal runs of non-whitespace characters of the line, in
order, truncated to the first `MAX_ARGS - 1 = 31`; this list is what either mode hands to its
validator; no token is empty or contains a space, tab or newline; and `"  ls   -la  "` yields
`["ls", "-la"]`. -/
theorem tokenizer_maximal_runs (input : List Char) :
    tokens_of input = (words (cut_newline input)).take (MAX_ARGS - 1) ∧
    MAX_ARGS - 1 = 31 ∧
    cut_newline input = (cstr input).takeWhile (fun c => c != '\n') ∧
    (∀ args, interactive_tokenize input = .tokens args → args = tokens_of input) ∧
    (∀ args, batch_tokenize input = .tokens args → args = tokens_of input) ∧
    (tokens_of input).length ≤ 31 ∧
    (∀ t ∈ tokens_of input, t ≠ [] ∧ ' ' ∉ t ∧ '\t' ∉ t ∧ '\n' ∉ t) ∧
    tokens_of "  ls   -la  ".toList = ["ls".toList, "-la".toList] := by
  refine ⟨tokens_of_words input, rfl, cut_newline_eq input,
    fun args h => (handed_on_interactive input args h).1,
    fun args h => (handed_on_batch input args h).1,
    tokens_of_length input, ?_, by decide⟩
  intro t ht
  obtain ⟨hne, hd⟩ := tokens_of_mem input t ht
  refine ⟨hne, ?_, ?_, ?_⟩ <;> intro hm <;> have := hd _ hm <;> revert this <;> decide

theorem check_redirect_none_of_not_mem (args : List CStr) (h : GT ∉ args) :
    check_redirect args = none := by
  rw [check_redirect_eq, scan_of_not_mem args h]
  simp

theorem child_action_of_not_mem (args : List CStr) (h : GT ∉ args) :
    child_action args = .exec args.head? args none := by
  unfold child_action
  rw [scan_of_not_mem args h]
  simp

theorem check_redirect_one_target (pre : List CStr) (f : CStr) (hpre : pre ≠ [])
    (h : GT ∉ pre) : check_redirect (pre ++ [GT, f]) = none := by
  rw [check_redirect_eq, scan_append pre [f] h]
  have : pre.length ≠ 0 := by
    intro e; exact hpre (List.length_eq_zero.1 e)
  simp [this]

theorem child_action_one_target (pre : List CStr) (f : CStr) (h : GT ∉ pre) :
    child_action (pre ++ [GT, f])
      = .exec pre.head? pre (some ⟨f, true, true, true, 0o666⟩) := by
  have hget : (pre ++ [GT, f]).get? (pre.length + 1) = some f := by
    rw [List.get?_eq_getElem?, List.getElem?_append_right (by omega)]
    simp
  unfold child_action
  rw [scan_append pre [f] h]
  simp only [hget]
  simp

/-- C2: for every token sequence whose first token is not `cd` (in batch mode also not
`exit`), once `fork` has succeeded: without a `>` token the child executes token 0 with the
whole sequence as argument vector and no redirection; with the first `>` at an index `k ≥ 1`
followed by exactly one token `f` the child executes token 0 with the tokens before the `>` as
argument vector, after opening `f` write-only, create, truncate, mode 0666 for its standard
output and standard error. A line whose token sequence reaches the validator is processed in
exactly this way. -/
theorem exec_argv_and_redirect (args : List CStr) (a : CStr) (rest : List CStr)
    (hargs : args = a :: rest) (hcd : a ≠ CD) :
    (GT ∉ args →
      interactive_dispatch true args = ⟨[.child (.exec (some a) args none)], .next⟩ ∧
      (a ≠ EXIT →
        batch_dispatch true args = ⟨[.child (.exec (some a) args none)], .next⟩)) ∧
    (∀ pre f, args = pre ++ [GT, f] → GT ∉ pre → 1 ≤ pre.length →
      interactive_dispatch true args
        = ⟨[.child (.exec (some a) pre (some ⟨f, true, true, true, 0o666⟩))], .next⟩ ∧
      (a ≠ EXIT →
        batch_dispatch true args
          = ⟨[.child (.exec (some a) pre (some ⟨f, true, true, true, 0o666⟩))], .next⟩)) ∧
    (∀ input, interactive_tokenize input = .tokens args →
      interactive_line true input = interactive_dispatch true args) ∧
    (∀ input, batch_tokenize input = .tokens args →
      batch_line true input = batch_dispatch true args) := by
  have hcd' : (a == CD) = false := by simpa using hcd
  refine ⟨?_, ?_, fun input hs => interactive_line_of_tokens true input args hs,
    fun input hs => batch_line_of_tokens true input args hs⟩
  · intro hgt
    have h1 := check_redirect_none_of_not_mem args hgt
    have h2 := child_action_of_not_mem args hgt
    subst hargs
    constructor
    · simp [interactive_dispatch, h1, hcd', execute_command, h2]
    · intro hex
      have hex' : (a == EXIT) = false := by simpa using hex
      simp [batch_dispatch, h1, hcd', hex', execute_command, h2]
  · intro pre f hpf hgt hlen
    have hpre : pre ≠ [] := by
      intro e; rw [e] at hlen; simp at hlen
    have h1 := check_redirect_one_target pre f hpre hgt
    have h2 := child_action_one_target pre f hgt
    have hhead : pre.head? = some a := by
      cases pre with
      | nil => exact absurd rfl hpre
      | cons p ps =>
        rw [hargs] at hpf
        simp only [List.cons_append, List.cons.injEq] at hpf
        simp [hpf.1]
    have hhead2 : (pre ++ [GT, f]).head? = some a := by
      rw [← hpf, hargs]; rfl
    rw [hpf]
    constructor
    · simp [interactive_dispatch, h1, hhead2, hcd', execute_command, h2, hhead]
    · intro hex
      have hex' : (a == EXIT) = false := by simpa using hex
      simp [batch_dispatch, h1, hhead2, hcd', hex', execute_command, h2, hhead]

/-- Witness for C2: the line `echo hi > out.txt` in both modes. -/
theorem exec_argv_and_redirect_witness :
    interactive_line true "echo hi > out.txt\n".toList
      = ⟨[.child (.exec (some "echo".toList) ["echo".toList, "hi".toList]
          (some ⟨"out.txt".toList, true, true, true, 0o666⟩))], .next⟩ ∧
    batch_line true "echo hi > out.txt\n".toList
      = ⟨[.child (.exec (some "echo".toList) ["echo".toList, "hi".toList]
          (some ⟨"out.txt".toList, true, true, true, 0o666⟩))], .next⟩ :=
  have h := exec_argv_and_redirect ["echo".toList, "hi".toList, GT, "out.txt".toList]
    "echo".toList ["hi".toList, GT, "out.txt".toList] rfl (by decide)
  have hd := h.2.1 ["echo".toList, "hi".toList] "out.txt".toList rfl (by decide) (by decide)
  ⟨(h.2.2.1 _ (by decide)).trans hd.1, (h.2.2.2 _ (by decide)).trans (hd.2 (by decide))⟩

/-- A line with at least one token whose first token is not `exit` passes the early tests of
`interactive_mode`. -/
theorem interactive_tokenize_tokens (input : List Char) (a : CStr) (rest : List CStr)
    (h : tokens_of input = a :: rest) (hex : a ≠ EXIT ∨ rest ≠ []) :
    interactive_tokenize input = .tokens (a :: rest) := by
  rw [interactive_tokenize_eq]
  have h1 : cstr input ≠ ['e', 'x', 'i', 't', '\n'] := by
    intro e
    rw [tokens_of_exit_newline input e] at h
    simp only [List.cons.injEq] at h
    rcases hex with hex | hex
    · exact hex h.1.symm
    · exact hex h.2.symm
  have h2 : cstr input ≠ ['\n'] := by
    intro e
    rw [tokens_of_newline input e] at h
    cases h
  simp [h1, h2, h]

/-- A line with at least one token passes the early tests of `batch_mode` unless it is `>`
followed by the newline or its first token is made of `isspace` characters. -/
theorem batch_tokenize_tokens (input : List Char) (a : CStr) (rest : List CStr)
    (h : tokens_of input = a :: rest) (hgt : a ≠ GT ∨ rest ≠ [])
    (hsp : a.all isspace = false) :
    batch_tokenize input = .tokens (a :: rest) := by
  rw [batch_tokenize_eq]
  have h1 : cstr input ≠ ['>', '\n'] := by
    intro e
    rw [tokens_of_gt_newline input e] at h
    simp only [List.cons.injEq] at h
    rcases hgt with hgt | hgt
    · exact hgt h.1.symm
    · exact hgt h.2.symm
  have h2 : cstr input ≠ ['\n'] := by
    intro e
    rw [tokens_of_newline input e] at h
    cases h
  simp [h1, h2, h, hsp]

theorem builtin_cd_two (a p : CStr) (rest : List CStr) (h : scan (a :: p :: rest) = 2) :
    builtin_cd (a :: p :: rest) = ⟨[.chdir p], .next⟩ := by
  simp [builtin_cd, h]

theorem builtin_cd_other (args : List CStr) (h : scan args ≠ 2) :
    builtin_cd args = ⟨[.errmsg], .exit 0⟩ := by
  simp [builtin_cd, h]

theorem check_redirect_pass (a : CStr) (rest : List CStr) (ha : a ≠ GT)
    (h : (a :: rest).length ≤ scan (a :: rest) + 2) : check_redirect (a :: rest) = none := by
  rw [check_redirect_eq]
  have h0 : scan (a :: rest) ≠ 0 := by
    rw [scan_cons, if_neg ha]; omega
  have h2 : ¬ scan (a :: rest) + 2 < (a :: rest).length := by omega
  rw [if_neg h0, if_neg h2]
  simp

theorem check_redirect_two_targets (args : List CStr) (h1 : 1 ≤ scan args)
    (h2 : scan args + 2 < args.length) : check_redirect args = some ⟨[.errmsg], .next⟩ := by
  rw [check_redirect_eq]
  have h0 : scan args ≠ 0 := by omega
  have h3 : scan args < args.length := by omega
  simp [h0, h2, h3]

theorem check_redirect_first (rest : List CStr) :
    check_redirect (GT :: rest) = some ⟨[.errmsg], .exit 0⟩ := by
  rw [check_redirect_eq]
  have h0 : scan (GT :: rest) = 0 := by rw [scan_cons, if_pos rfl]
  simp [h0]

/-- The `cd` lines in both dispatchers. -/
theorem dispatch_cd (fk : Bool) (rest : List CStr)
    (h : (CD :: rest).length ≤ scan (CD :: rest) + 2) :
    interactive_dispatch fk (CD :: rest) = builtin_cd (CD :: rest) ∧
    batch_dispatch fk (CD :: rest) = builtin_cd (CD :: rest) := by
  have h1 := check_redirect_pass CD rest (by decide) h
  constructor
  · simp [interactive_dispatch, h1]
  · simp [batch_dispatch, h1]

theorem dispatch_two_targets (fk : Bool) (args : List CStr) (h1 : 1 ≤ scan args)
    (h2 : scan args + 2 < args.length) :
    interactive_dispatch fk args = ⟨[.errmsg], .next⟩ ∧
    batch_dispatch fk args = ⟨[.errmsg], .next⟩ := by
  have hc := check_redirect_two_targets args h1 h2
  constructor
  · simp [interactive_dispatch, hc]
  · simp [batch_dispatch, hc]

/-- C3, amended: in both modes, for every line whose first token is `cd`: if the line has no
`>` token and exactly two tokens, the shell changes directory to token 1, spawns nothing and
goes on to the next line; if it has no `>` token and any other number of tokens (one, or three
or more), the shell writes the error message once and ends the session with `exit(0)`; if its
first `>` token is followed by two or more tokens, the shell writes the error message once and
the session goes on. -/
theorem cd_arity (fk : Bool) (input : List Char) (rest : List CStr)
    (h : tokens_of input = CD :: rest) :
    (GT ∉ rest → ∀ p, rest = [p] →
      interactive_line fk input = ⟨[.chdir p], .next⟩ ∧
      batch_line fk input = ⟨[.chdir p], .next⟩) ∧
    (GT ∉ rest → rest.length ≠ 1 →
      interactive_line fk input = ⟨[.errmsg], .exit 0⟩ ∧
      batch_line fk input = ⟨[.errmsg], .exit 0⟩) ∧
    (scan (CD :: rest) + 2 < (CD :: rest).length →
      interactive_line fk input = ⟨[.errmsg], .next⟩ ∧
      batch_line fk input = ⟨[.errmsg], .next⟩) := by
  have hi := interactive_line_of_tokens fk input _
    (interactive_tokenize_tokens input CD rest h (Or.inl (by decide)))
  have hb := batch_line_of_tokens fk input _
    (batch_tokenize_tokens input CD rest h (Or.inl (by decide)) (by decide))
  have hs1 : 1 ≤ scan (CD :: rest) := by
    rw [scan_cons, if_neg (by decide)]; omega
  have hlen : GT ∉ rest → scan (CD :: rest) = rest.length + 1 := by
    intro hgt
    have : GT ∉ CD :: rest := by
      intro hm
      rcases List.mem_cons.1 hm with e | e
      · exact absurd e (by decide)
      · exact hgt e
    rw [scan_of_not_mem _ this]; rfl
  rw [hi, hb]
  refine ⟨?_, ?_, fun hl => dispatch_two_targets fk _ hs1 hl⟩
  · intro hgt p hp
    have hk := hlen hgt
    obtain ⟨di, db⟩ := dispatch_cd fk rest (by rw [hk]; simp)
    rw [di, db]
    subst hp
    exact ⟨builtin_cd_two CD p [] hk, builtin_cd_two CD p [] hk⟩
  · intro hgt hne
    have hk := hlen hgt
    obtain ⟨di, db⟩ := dispatch_cd fk rest (by rw [hk]; simp)
    rw [di, db]
    have h2 : scan (CD :: rest) ≠ 2 := by omega
    exact ⟨builtin_cd_other _ h2, builtin_cd_other _ h2⟩

/-- Witness for C3: `cd /tmp` changes directory to `/tmp` in both modes, `cd` alone and
`cd a b` end the session. -/
theorem cd_arity_witness :
    (interactive_line true "cd /tmp\n".toList = ⟨[.chdir "/tmp".toList], .next⟩ ∧
      batch_line true "cd /tmp\n".toList = ⟨[.chdir "/tmp".toList], .next⟩) ∧
    (interactive_line true "cd\n".toList = ⟨[.errmsg], .exit 0⟩ ∧
      batch_line true "cd\n".toList = ⟨[.errmsg], .exit 0⟩) ∧
    (interactive_line true "cd a b\n".toList = ⟨[.errmsg], .exit 0⟩ ∧
      batch_line true "cd a b\n".toList = ⟨[.errmsg], .exit 0⟩) :=
  ⟨(cd_arity true "cd /tmp\n".toList ["/tmp".toList] (by decide)).1 (by decide) _ rfl,
   (cd_arity true "cd\n".toList [] (by decide)).2.1 (by decide) (by decide),
   (cd_arity true "cd a b\n".toList [['a'], ['b']] (by decide)).2.1 (by decide) (by decide)⟩

/-- Counterexample to C3 as stated: `cd a b > c d` has six tokens and the session goes on
after the error message; `cd >` has exactly two tokens and ends the session with the error
message instead of changing directory; `cd a > f` has four tokens and changes directory to
`a` without any error. -/
theorem cd_arity_counterexample :
    (tokens_of "cd a b > c d\n".toList = [CD, ['a'], ['b'], GT, ['c'], ['d']] ∧
      interactive_line true "cd a b > c d\n".toList = ⟨[.errmsg], .next⟩ ∧
      batch_line true "cd a b > c d\n".toList = ⟨[.errmsg], .next⟩) ∧
    (tokens_of "cd >\n".toList = [CD, GT] ∧
      interactive_line true "cd >\n".toList = ⟨[.errmsg], .exit 0⟩ ∧
      batch_line true "cd >\n".toList = ⟨[.errmsg], .exit 0⟩) ∧
    (tokens_of "cd a > f\n".toList = [CD, ['a'], GT, ['f']] ∧
      interactive_line true "cd a > f\n".toList = ⟨[.chdir ['a']], .next⟩ ∧
      batch_line true "cd a > f\n".toList = ⟨[.chdir ['a']], .next⟩) := by
  decide

/-- C4: in both modes a line whose first token is `>` and that has a further token, and in
interactive mode also the line whose only token is `>`, makes the shell write the error
message once, spawn nothing and end the session with `exit(0)`, whatever follows the `>`. -/
theorem redirect_first_fatal (fk : Bool) (input : List Char) (rest : List CStr)
    (h : tokens_of input = GT :: rest) :
    interactive_line fk input = ⟨[.errmsg], .exit 0⟩ ∧
    (rest ≠ [] → batch_line fk input = ⟨[.errmsg], .exit 0⟩) := by
  constructor
  · rw [interactive_line_of_tokens fk input _
      (interactive_tokenize_tokens input GT rest h (Or.inl (by decide)))]
    simp [interactive_dispatch, check_redirect_first]
  · intro hr
    rw [batch_line_of_tokens fk input _
      (batch_tokenize_tokens input GT rest h (Or.inr hr) (by decide))]
    simp [batch_dispatch, check_redirect_first]

/-- Witness for C4: the line `> out.txt`. -/
theorem redirect_first_fatal_witness :
    interactive_line true "> out.txt\n".toList = ⟨[.errmsg], .exit 0⟩ ∧
    batch_line true "> out.txt\n".toList = ⟨[.errmsg], .exit 0⟩ :=
  have h := redirect_first_fatal true "> out.txt\n".toList ["out.txt".toList] (by decide)
  ⟨h.1, h.2 (by decide)⟩

/-- C5: in both modes, for every token sequence whose first `>` is at an index `k ≥ 1` and is
followed by two or more tokens, the validator writes the error message once and goes on to the
next line: no child, no change of directory, no exit, also when token 0 is `cd` or `exit`.
The same holds for every line that reaches the validator with such a sequence, as
`echo hi > a.txt b.txt` does. -/
theorem two_targets_continue (fk : Bool) (args : List CStr) (h1 : 1 ≤ scan args)
    (h2 : scan args + 2 < args.length) :
    interactive_dispatch fk args = ⟨[.errmsg], .next⟩ ∧
    batch_dispatch fk args = ⟨[.errmsg], .next⟩ ∧
    (∀ input, interactive_tokenize input = .tokens args →
      interactive_line fk input = ⟨[.errmsg], .next⟩) ∧
    (∀ input, batch_tokenize input = .tokens args →
      batch_line fk input = ⟨[.errmsg], .next⟩) := by
  obtain ⟨hi, hb⟩ := dispatch_two_targets fk args h1 h2
  exact ⟨hi, hb, fun input hs => by rw [interactive_line_of_tokens fk input args hs, hi],
    fun input hs => by rw [batch_line_of_tokens fk input args hs, hb]⟩

/-- Witness for C5: `echo hi > a.txt b.txt`, as a token sequence and as a line. -/
theorem two_targets_continue_witness :
    interactive_line true "echo hi > a.txt b.txt\n".toList = ⟨[.errmsg], .next⟩ ∧
    batch_line true "echo hi > a.txt b.txt\n".toList = ⟨[.errmsg], .next⟩ :=
  have h := two_targets_continue true
    ["echo".toList, "hi".toList, GT, "a.txt".toList, "b.txt".toList] (by decide) (by decide)
  ⟨h.2.2.1 _ (by decide), h.2.2.2 _ (by decide)⟩

theorem words_of_all_delim (s : CStr) (h : ∀ c ∈ s, isDelim c = true) : words s = [] := by
  rw [← words_dropWhile s, List.dropWhile_eq_nil_iff.2 h, words_nil]

theorem tokens_of_blank (input : List Char) (h : ∀ c ∈ input, isDelim c = true) :
    tokens_of input = [] := by
  rw [tokens_of_words, words_of_all_delim]
  · rfl
  · intro c hc
    rw [cut_newline_eq] at hc
    exact h c ((List.takeWhile_prefix _).subset ((List.takeWhile_prefix _).subset hc))

theorem interactive_line_no_tokens (fk : Bool) (input : List Char)
    (h : tokens_of input = []) : interactive_line fk input = ⟨[], .next⟩ := by
  have h1 : cstr input ≠ ['e', 'x', 'i', 't', '\n'] := by
    intro e
    rw [tokens_of_exit_newline input e] at h
    cases h
  unfold interactive_line
  rw [interactive_tokenize_eq]
  by_cases h2 : cstr input = ['\n'] <;> simp [h1, h2, h]

theorem batch_line_no_tokens (fk : Bool) (input : List Char)
    (h : tokens_of input = []) : batch_line fk input = ⟨[], .next⟩ := by
  have h1 : cstr input ≠ ['>', '\n'] := by
    intro e
    rw [tokens_of_gt_newline input e] at h
    cases h
  unfold batch_line
  rw [batch_tokenize_eq]
  by_cases h2 : cstr input = ['\n'] <;> simp [h1, h2, h]

theorem builtin_cd_ctl (args : List CStr) :
    (builtin_cd args).ctl = .next ∨ (builtin_cd args).ctl = .exit 0 := by
  unfold builtin_cd
  by_cases h : scan args = 2
  · have hl := scan_le args
    rw [h] at hl
    match args, hl with
    | _ :: p :: _, _ => simp [h]
  · simp [h]

theorem execute_command_ctl (fk : Bool) (args : List CStr) :
    (execute_command fk args).ctl = .next ∨ (execute_command fk args).ctl = .exit 0 := by
  cases fk <;> simp [execute_command]

theorem check_redirect_ctl (args : List CStr) (o : Outcome) (h : check_redirect args = some o) :
    o.ctl = .next ∨ o.ctl = .exit 0 := by
  rw [check_redirect_eq] at h
  split_ifs at h <;> simp only [Option.some.injEq] at h <;> subst h <;> simp

/-- On a non-empty token sequence either dispatcher goes on to the next line or calls
`exit(0)`. -/
theorem dispatch_ctl (fk : Bool) (args : List CStr) (hne : args ≠ []) :
    ((interactive_dispatch fk args).ctl = .next ∨
      (interactive_dispatch fk args).ctl = .exit 0) ∧
    ((batch_dispatch fk args).ctl = .next ∨ (batch_dispatch fk args).ctl = .exit 0) := by
  cases args with
  | nil => exact absurd rfl hne
  | cons a rest =>
    unfold interactive_dispatch batch_dispatch
    cases hc : check_redirect (a :: rest) with
    | some o => exact ⟨check_redirect_ctl _ o hc, check_redirect_ctl _ o hc⟩
    | none =>
      simp only [List.head?_cons]
      cases h1 : (a == CD)
      · cases h2 : (a == EXIT)
        · simp only [Bool.false_eq_true, if_false]
          exact ⟨execute_command_ctl fk _, execute_command_ctl fk _⟩
        · simp only [Bool.false_eq_true, if_false, if_true]
          refine ⟨execute_command_ctl fk _, ?_⟩
          split_ifs <;> simp
      · simp only [if_true]
        exact ⟨builtin_cd_ctl _, builtin_cd_ctl _⟩

/-- One iteration of `interactive_mode` goes on, breaks, or calls `exit(0)`. -/
theorem interactive_line_ctl (fk : Bool) (input : List Char) :
    (interactive_line fk input).ctl = .next ∨ (interactive_line fk input).ctl = .stop ∨
      (interactive_line fk input).ctl = .exit 0 := by
  unfold interactive_line
  cases hs : interactive_tokenize input with
  | handled o =>
    rw [interactive_tokenize_eq] at hs
    split_ifs at hs <;> simp only [Tokenized.handled.injEq] at hs <;> subst hs <;> simp
  | tokens args =>
    rcases (dispatch_ctl fk args (handed_on_interactive input args hs).2).1 with h | h
    · exact Or.inl h
    · exact Or.inr (Or.inr h)

/-- One iteration of `batch_mode` goes on or calls `exit(0)`. -/
theorem batch_line_ctl (fk : Bool) (input : List Char) :
    (batch_line fk input).ctl = .next ∨ (batch_line fk input).ctl = .exit 0 := by
  unfold batch_line
  cases hs : batch_tokenize input with
  | handled o =>
    rw [batch_tokenize_eq] at hs
    split_ifs at hs <;> simp only [Tokenized.handled.injEq] at hs <;> subst hs <;> simp
  | tokens args =>
    exact (dispatch_ctl fk args (handed_on_batch input args hs).2).2

/-- C6: in both modes a line made only of spaces, tabs and newlines (the empty line included)
has no token and is a no-op: nothing is written, nothing is spawned, the directory is not
changed and the loop goes on to the next line. Moreover neither mode ever hands an empty token
sequence to the code that reads token 0. -/
theorem blank_line_noop (fk : Bool) (input : List Char)
    (h : ∀ c ∈ input, c = ' ' ∨ c = '\t' ∨ c = '\n') :
    tokens_of input = [] ∧
    interactive_line fk input = ⟨[], .next⟩ ∧
    batch_line fk input = ⟨[], .next⟩ ∧
    (∀ line args, interactive_tokenize line = .tokens args → args ≠ []) ∧
    (∀ line args, batch_tokenize line = .tokens args → args ≠ []) ∧
    (∀ line,
      (interactive_line fk line).ctl ≠ .fault ∧ (batch_line fk line).ctl ≠ .fault) := by
  have hd : ∀ c ∈ input, isDelim c = true := fun c hc => (isDelim_iff c).2 (h c hc)
  have ht := tokens_of_blank input hd
  refine ⟨ht, interactive_line_no_tokens fk input ht, batch_line_no_tokens fk input ht,
    fun line args hs => (handed_on_interactive line args hs).2,
    fun line args hs => (handed_on_batch line args hs).2, ?_⟩
  intro line
  constructor
  · rcases interactive_line_ctl fk line with h | h | h <;> rw [h] <;> simp
  · rcases batch_line_ctl fk line with h | h <;> rw [h] <;> simp

/-- Witness for C6: a line of two spaces, a tab and the newline. -/
theorem blank_line_noop_witness :
    tokens_of "  \t\n".toList = [] ∧
    interactive_line true "  \t\n".toList = ⟨[], .next⟩ ∧
    batch_line true "  \t\n".toList = ⟨[], .next⟩ :=
  have h := blank_line_noop true "  \t\n".toList (by decide)
  ⟨h.1, h.2.1, h.2.2.1⟩

/-- C7, amended: in batch mode the line that is exactly `>` followed by its newline makes the
shell write the error message once, run nothing and go on to the next line; the empty line
(just the newline) is skipped without any message. -/
theorem batch_lone_redirect (fk : Bool) (input : List Char) :
    (cstr input = ['>', '\n'] → batch_line fk input = ⟨[.errmsg], .next⟩) ∧
    (cstr input = ['\n'] → batch_line fk input = ⟨[], .next⟩) := by
  constructor
  · intro h
    unfold batch_line
    rw [batch_tokenize_eq]
    simp [h]
  · intro h
    unfold batch_line
    rw [batch_tokenize_eq]
    simp [h]

/-- Counterexample to C7 as stated: in batch mode the empty line writes no error message. -/
theorem batch_empty_line_counterexample :
    batch_line true "\n".toList = ⟨[], .next⟩ ∧
    Event.errmsg ∉ (batch_line true "\n".toList).events := by
  decide

theorem dispatch_exit (fk : Bool) (rest : List CStr)
    (h : (EXIT :: rest).length ≤ scan (EXIT :: rest) + 2) :
    batch_dispatch fk (EXIT :: rest)
      = if rest = [] then ⟨[.fclose], .exit 0⟩ else ⟨[.errmsg], .exit 0⟩ := by
  have h1 := check_redirect_pass EXIT rest (by decide) h
  have h2 : (EXIT == CD) = false := by decide
  cases rest with
  | nil => simp [batch_dispatch, h1, h2]
  | cons p ps => simp [batch_dispatch, h1, h2]

/-- C8, amended: in batch mode, for every line whose first token is `exit`: if it is the only
token the file is closed and the session ends with status 0 without any message; if further
tokens follow and the first `>` token, if any, is followed by at most one token, the error
message is written once and the session ends with status 0; if the first `>` token is followed
by two or more tokens the error message is written once and the session goes on. In no case is
a child spawned. -/
theorem batch_exit_arity (fk : Bool) (input : List Char) (rest : List CStr)
    (h : tokens_of input = EXIT :: rest) :
    (rest = [] → batch_line fk input = ⟨[.fclose], .exit 0⟩) ∧
    (rest ≠ [] → (EXIT :: rest).length ≤ scan (EXIT :: rest) + 2 →
      batch_line fk input = ⟨[.errmsg], .exit 0⟩) ∧
    (scan (EXIT :: rest) + 2 < (EXIT :: rest).length →
      batch_line fk input = ⟨[.errmsg], .next⟩) ∧
    (∀ c, Event.child c ∉ (batch_line fk input).events) := by
  have hb := batch_line_of_tokens fk input _
    (batch_tokenize_tokens input EXIT rest h (Or.inl (by decide)) (by decide))
  have hs1 : 1 ≤ scan (EXIT :: rest) := by
    rw [scan_cons, if_neg (by decide)]; omega
  have c1 : rest = [] → batch_line fk input = ⟨[.fclose], .exit 0⟩ := by
    intro hr
    rw [hb, dispatch_exit fk rest (by rw [hr]; decide), if_pos hr]
  have c2 : rest ≠ [] → (EXIT :: rest).length ≤ scan (EXIT :: rest) + 2 →
      batch_line fk input = ⟨[.errmsg], .exit 0⟩ := by
    intro hr hl
    rw [hb, dispatch_exit fk rest hl, if_neg hr]
  have c3 : scan (EXIT :: rest) + 2 < (EXIT :: rest).length →
      batch_line fk input = ⟨[.errmsg], .next⟩ := by
    intro hl
    rw [hb]
    exact (dispatch_two_targets fk _ hs1 hl).2
  refine ⟨c1, c2, c3, ?_⟩
  intro c
  by_cases hl : scan (EXIT :: rest) + 2 < (EXIT :: rest).length
  · rw [c3 hl]; simp
  · by_cases hr : rest = []
    · rw [c1 hr]; simp
    · rw [c2 hr (by omega)]; simp

/-- Witness for C8: the lines `exit` and `exit extra`. -/
theorem batch_exit_arity_witness :
    batch_line true "exit\n".toList = ⟨[.fclose], .exit 0⟩ ∧
    batch_line true "exit extra\n".toList = ⟨[.errmsg], .exit 0⟩ :=
  ⟨(batch_exit_arity true "exit\n".toList [] (by decide)).1 rfl,
   (batch_exit_arity true "exit extra\n".toList ["extra".toList] (by decide)).2.1
     (by decide) (by decide)⟩

/-- Counterexample to C8 as stated: in batch mode the line `exit > a b` has further tokens
after `exit`, yet the session does not end: the error message is written and the loop goes
on. -/
theorem batch_exit_counterexample :
    tokens_of "exit > a b\n".toList = [EXIT, GT, ['a'], ['b']] ∧
    batch_line true "exit > a b\n".toList = ⟨[.errmsg], .next⟩ := by
  decide

theorem interactive_loop_ending (fork : Nat → Bool) (n : Nat) (lines : List (List Char)) :
    (interactive_loop fork n lines).2 = .returned ∨
      (interactive_loop fork n lines).2 = .exited 0 := by
  induction lines generalizing n with
  | nil => simp [interactive_loop]
  | cons l ls ih =>
    unfold interactive_loop
    rcases interactive_line_ctl (fork n) l with h | h | h
    · simp only [h]; exact ih (n + 1)
    · simp only [h]; simp
    · simp only [h]; simp

theorem batch_loop_ending (fork : Nat → Bool) (n : Nat) (lines : List (List Char)) :
    (batch_loop fork n lines).2 = .returned ∨ (batch_loop fork n lines).2 = .exited 0 := by
  induction lines generalizing n with
  | nil => simp [batch_loop]
  | cons l ls ih =>
    unfold batch_loop
    rcases batch_line_ctl (fork n) l with h | h
    · simp only [h]; exact ih (n + 1)
    · simp only [h]; simp

theorem finish_status_zero (r : List Event × Ending)
    (h : r.2 = .returned ∨ r.2 = .exited 0) : (finish r).status = some 0 := by
  unfold finish
  rcases h with h | h <;> simp [h]

/-- C9: whatever the arguments and the input, the shell process ends with exit status 0 or 1
(never by a fault); the status is 1 exactly when more than one extra argument was given, or
the single extra argument is neither `exit` nor `cd` and names a file that cannot be opened;
in those two cases the error message is what the process wrote; every other run ends with
status 0. -/
theorem exit_status (argv : List CStr) (env : Env) :
    ((main argv env).status = some 0 ∨ (main argv env).status = some 1) ∧
    ((main argv env).status = some 1 ↔
      (2 < argv.length ∨
        (argv.length = 2 ∧ ∃ f, argv.get? 1 = some f ∧ f ≠ EXIT ∧ f ≠ CD ∧
          env.fopen f = none))) ∧
    ((main argv env).status = some 1 → (main argv env).events = [.errmsg]) := by
  match argv with
  | [] => simp [main]
  | [a] =>
    have h := finish_status_zero _ (interactive_loop_ending env.fork 0 env.stdin)
    simp [main, interactive_mode, h]
  | [a, f] =>
    by_cases h1 : f = EXIT
    · simp [main, h1]
    · by_cases h2 : f = CD
      · subst h2
        simp [main, h1]
      · have e1 : (f == EXIT) = false := by simpa using h1
        have e2 : (f == CD) = false := by simpa using h2
        cases hf : env.fopen f with
        | none => simp [main, e1, e2, h1, h2, batch_mode, hf, finish]
        | some lines =>
          have h := finish_status_zero _ (batch_loop_ending env.fork 0 lines)
          simp [main, e1, e2, h1, h2, batch_mode, hf, h]
  | a :: b :: c :: rest => simp [main]

theorem batch_tokenize_tokens_of (input : List Char) (a : CStr) (rest : List CStr)
    (h : tokens_of input = a :: rest) (hgt : cstr input ≠ ['>', '\n'])
    (hsp : a.all isspace = false) :
    batch_tokenize input = .tokens (a :: rest) := by
  rw [batch_tokenize_eq]
  have h2 : cstr input ≠ ['\n'] := by
    intro e
    rw [tokens_of_newline input e] at h
    cases h
  simp [hgt, h2, h, hsp]

theorem dispatch_same (fk : Bool) (a : CStr) (rest : List CStr) (hex : a ≠ EXIT) :
    batch_dispatch fk (a :: rest) = interactive_dispatch fk (a :: rest) := by
  have e1 : (a == EXIT) = false := by simpa using hex
  unfold batch_dispatch interactive_dispatch
  simp [e1]

/-- C10, amended: for every line other than `>` followed by its newline, whose first token
(if it has one) is not `exit` and contains a character that is not an `isspace` character
(that is, is not made up of vertical tabs, form feeds and carriage returns only), one iteration
of `batch_mode` has the same outcome as one iteration of `interactive_mode`: the same events
(error message, `chdir` path, child with its argument vector and redirection) and the same
continuation. -/
theorem batch_matches_interactive (fk : Bool) (input : List Char)
    (hgt : cstr input ≠ ['>', '\n'])
    (hexit : (tokens_of input).head? ≠ some EXIT)
    (hsp : ∀ a, (tokens_of input).head? = some a → a.all isspace = false) :
    batch_line fk input = interactive_line fk input := by
  cases h : tokens_of input with
  | nil => rw [batch_line_no_tokens fk input h, interactive_line_no_tokens fk input h]
  | cons a rest =>
    rw [h] at hexit hsp
    have hex : a ≠ EXIT := fun e => hexit (by rw [e]; rfl)
    rw [batch_line_of_tokens fk input _ (batch_tokenize_tokens_of input a rest h hgt (hsp a rfl)),
      interactive_line_of_tokens fk input _
        (interactive_tokenize_tokens input a rest h (Or.inl hex)),
      dispatch_same fk a rest hex]

/-- Witness for C10: `echo hi > out.txt`. -/
theorem batch_matches_interactive_witness :
    batch_line true "echo hi > out.txt\n".toList
      = interactive_line true "echo hi > out.txt\n".toList :=
  batch_matches_interactive true "echo hi > out.txt\n".toList (by decide) (by decide)
    (by decide)

/-- Counterexample to C10 as stated: the line consisting of a carriage return (and its
newline) is neither empty nor `>` and its first token is not `exit`; interactive mode spawns a
child for it, batch mode skips it. -/
theorem batch_matches_interactive_counterexample :
    tokens_of "\r\n".toList = [['\r']] ∧
    interactive_line true "\r\n".toList
      = ⟨[.child (.exec (some ['\r']) [['\r']] none)], .next⟩ ∧
    batch_line true "\r\n".toList = ⟨[], .next⟩ ∧
    batch_line true "\r\n".toList ≠ interactive_line true "\r\n".toList := by
  decide

end Msh
